import Mathlib

/-!
Verification of `most_important_deps` (src/most_important_deps/src/main.rs).

The development shallowly embeds the program's pure logic:
  * string splitting as done by Rust's `str::split`, `str::splitn` and
    `u64::from_str`;
  * the eval-cache input reader loop of `main` (lines 45-59);
  * the HTML scraping of `fetch_failed_deps_of` over a tree model of the
    parsed document, following the `select` crate's predicate semantics;
  * the per-evaluation publish sequence of `main` (lines 72-98) as a step
    relation;
  * the cache purge of `main` (lines 102-132).

Rust panics (out-of-bounds indexing, non-boundary byte slicing) are a
distinguished outcome constructor, separate from `Result` errors.
-/


/-! ## Definitions: the shallow embedding of the program -/

abbrev Chars := List Char

/-- Concatenate a list of character lists. -/
def concatAll : List Chars → Chars
  | [] => []
  | x :: xs => x ++ concatAll xs

/-- Split at the first character satisfying `p`: returns the part before it
and the part after it, or `none` when no character satisfies `p`. -/
def breakP (p : Char → Bool) : Chars → Option (Chars × Chars)
  | [] => none
  | c :: cs =>
    if p c then some ([], cs)
    else
      match breakP p cs with
      | none => none
      | some (a, r) => some (c :: a, r)

/-- Rust `str::split` by a character predicate: every separator occurrence
produces a boundary, so consecutive separators yield empty parts and the
result is always non-empty. -/
def splitChP (p : Char → Bool) : Chars → List Chars
  | [] => [[]]
  | c :: cs =>
    if p c then [] :: splitChP p cs
    else
      match splitChP p cs with
      | [] => [[c]]
      | q :: qs => (c :: q) :: qs

/-- Rust `str::split(sep)` for a single-character separator. -/
def splitCh (sep : Char) (s : Chars) : List Chars :=
  splitChP (fun c => c == sep) s

/-- Rust `str::splitn(n, sep)` generalised to a separator predicate: at most
`n` parts, the last part keeps the remaining separators. -/
def splitnP (n : Nat) (p : Char → Bool) (s : Chars) : List Chars :=
  match n with
  | 0 => []
  | 1 => [s]
  | m + 2 =>
    match breakP p s with
    | none => [s]
    | some (a, rest) => a :: splitnP (m + 1) p rest

/-- Rust `u64::from_str`: optional leading plus sign, then one or more ASCII
digits, failing on overflow past `2^64 - 1`. -/
def parseU64 (s : Chars) : Option Nat :=
  let ds := match s with
            | c :: cs => if c == '+' then cs else s
            | [] => []
  if ds.isEmpty then none
  else if ds.all (fun c => c.isDigit) then
    let v := ds.foldl (fun acc c => acc * 10 + (c.toNat - 48)) 0
    if v < 18446744073709551616 then some v else none
  else none

/-- Rust `str::contains(pat)` on character lists (naive substring search). -/
def isSubstr (pat : Chars) : Chars → Bool
  | [] => pat.isEmpty
  | c :: t => pat.isPrefixOf (c :: t) || isSubstr pat t

/-- UTF-8 byte length of a character list, as Rust `str::len`. -/
def utf8Len : Chars → Nat
  | [] => 0
  | c :: cs => c.utf8Size + utf8Len cs

/-- Rust byte slicing `s[n..]`: drop exactly `n` UTF-8 bytes. `none` models
the panic raised when `n` is not a character boundary of `s` (including when
`n` exceeds the byte length). -/
def utf8DropBytes : Nat → Chars → Option Chars
  | 0, s => some s
  | _ + 1, [] => none
  | n + 1, c :: cs =>
    if c.utf8Size ≤ n + 1 then utf8DropBytes (n + 1 - c.utf8Size) cs else none

def sDepFailed : Chars := ("Dependency failed").toList

def spaceP : Char → Bool := fun c => c == ' '

/-- Outcome of the eval-cache reading loop in `main`. `panicked` models a
Rust panic (index out of bounds), `malformed` the `?`-propagated integer
parse error, `sourceMissing` the `?`-propagated `read_to_string` error. -/
inductive ReaderOutcome where
  | panicked : ReaderOutcome
  | sourceMissing : ReaderOutcome
  | malformed : ReaderOutcome
  | ok : List Nat → ReaderOutcome
deriving DecidableEq, Repr

/-- The per-line loop of `main` lines 50-59: skip empty lines, split into at
most 5 space-separated parts, index `parts[4]` (panicking when absent),
keep only status `Dependency failed`, then parse `parts[1]` as `u64`. -/
def processLines : List Chars → ReaderOutcome
  | [] => .ok []
  | line :: rest =>
    if line = [] then processLines rest
    else
      match (splitnP 5 spaceP line)[4]? with
      | none => .panicked
      | some p4 =>
        if p4 = sDepFailed then
          match (splitnP 5 spaceP line)[1]? with
          | none => .panicked
          | some p1 =>
            match parseU64 p1 with
            | none => .malformed
            | some id =>
              match processLines rest with
              | .ok ids => .ok (id :: ids)
              | o => o
        else processLines rest

/-- The Input Reader for one evaluation (`main` lines 45-59): `none` input
models an absent `evalcache/<e>.cache` file. -/
def readEvalCache : Option Chars → ReaderOutcome
  | none => .sourceMissing
  | some content => processLines (splitCh '\n' content)

/-- Sequencing of reader outcomes: the loop aborts at the first panic or
malformed line, otherwise concatenates the collected build ids. -/
def seqOutcome : ReaderOutcome → ReaderOutcome → ReaderOutcome
  | .ok ids, .ok ids2 => .ok (ids ++ ids2)
  | .ok _, o => o
  | o, _ => o

mutual
/-- A parsed HTML node: raw text, or an element with a tag name, an
attribute association list, and a forest of child nodes. -/
inductive Html where
  | text : Chars → Html
  | elem : Chars → List (Chars × Chars) → HtmlForest → Html
/-- A sequence of sibling nodes: the children of an element, or the roots
of a document, in document order. -/
inductive HtmlForest where
  | fnil : HtmlForest
  | fcons : Html → HtmlForest → HtmlForest
end

/-- Build a forest from a list of sibling nodes. -/
def forestOf : List Html → HtmlForest
  | [] => .fnil
  | h :: t => .fcons h (forestOf t)

mutual
/-- All nodes of the given forest in document (pre-)order: each node is
followed by its descendants. This is the iteration order of the `select`
crate's raw node table. -/
def listDescendants : HtmlForest → List Html
  | .fnil => []
  | .fcons h t => nodeAndDescendants h ++ listDescendants t
/-- A node followed by all its descendants in document order. -/
def nodeAndDescendants : Html → List Html
  | .text s => [.text s]
  | .elem n a cs => .elem n a cs :: listDescendants cs
end

mutual
/-- Text content of a forest, in document order. -/
def listText : HtmlForest → Chars
  | .fnil => []
  | .fcons h t => nodeText h ++ listText t
/-- `Node::text()` of the `select` crate: concatenation of all text
descendants in document order. -/
def nodeText : Html → Chars
  | .text s => s
  | .elem _ _ cs => listText cs
end

/-- `Node::attr(name)`: first attribute with the given name, elements only. -/
def attrOf (k : Chars) : Html → Option Chars
  | .text _ => none
  | .elem _ attrs _ => (attrs.find? (fun p => p.1 == k)).map (fun p => p.2)

/-- The `Name(tag)` predicate of the `select` crate. -/
def isNamed (nm : Chars) : Html → Bool
  | .text _ => false
  | .elem n _ _ => n == nm

def sClass : Chars := ("class").toList

/-- The `Class(c)` predicate of the `select` crate: the `class` attribute,
split on whitespace, contains the given class. -/
def hasClass (c : Chars) (h : Html) : Bool :=
  match attrOf sClass h with
  | some s => ((splitChP (fun ch => ch.isWhitespace) s).filter
      (fun w => !w.isEmpty)).contains c
  | none => false

/-- The `Attr(name, value)` predicate of the `select` crate. -/
def attrEq (k v : Chars) (h : Html) : Bool :=
  match attrOf k h with
  | some w => w == v
  | none => false

/-- `Node::find(pred)`: all strict descendants of the node satisfying the
predicate, in document order. -/
def findDesc (p : Html → Bool) : Html → List Html
  | .text _ => []
  | .elem _ _ cs => (listDescendants cs).filter p

mutual
/-- `Document::find(anc.descendant(tgt))` over a forest: all nodes
satisfying `tgt` that have a strict ancestor satisfying `anc`, in document
order. `flag` records whether an ancestor matching `anc` has already been
passed. -/
def descQueryForest (anc tgt : Html → Bool) : Bool → HtmlForest → List Html
  | _, .fnil => []
  | flag, .fcons h t =>
    descQueryNode anc tgt flag h ++ descQueryForest anc tgt flag t
/-- `descQueryForest` for the subtree rooted at one node. -/
def descQueryNode (anc tgt : Html → Bool) : Bool → Html → List Html
  | flag, .text s => if flag && tgt (.text s) then [Html.text s] else []
  | flag, .elem n a cs =>
    (if flag && tgt (.elem n a cs) then [Html.elem n a cs] else [])
      ++ descQueryForest anc tgt (flag || anc (.elem n a cs)) cs
end

def sInfoTable : Chars := ("info-table").toList

def sTt : Chars := ("tt").toList

def sId : Chars := ("id").toList

def sTabsBuildsteps : Chars := ("tabs-buildsteps").toList

def sTableTag : Chars := ("table").toList

def sClickableRows : Chars := ("clickable-rows").toList

def sTr : Chars := ("tr").toList

def sTd : Chars := ("td").toList

def sAnchor : Chars := ("a").toList

def sHref : Chars := ("href").toList

def sLog : Chars := ("log").toList

def sBuildSp : Chars := ("build ").toList

def sFailed : Chars := ("Failed").toList

def sCached : Chars := ("Cached").toList

def sSemi : Chars := (";").toList

def sNoArch : Chars := ("No architecture found").toList

def sNoSteps : Chars := ("No build steps found").toList

def sNoStorePath : Chars := ("No store path found").toList

def sNoBuildId : Chars := ("No build ID found").toList

/-- Outcome of processing one `<tr>` row. `panicked` models the Rust panic
of the byte slice `store_path[44..]`; `err` the `?`-propagated `anyhow`
errors that abort the whole worker. -/
inductive RowOutcome where
  | skipped : RowOutcome
  | panicked : RowOutcome
  | err : Chars → RowOutcome
  | record : Chars → Chars → RowOutcome
deriving DecidableEq, Repr

/-- Outcome of the whole worker body. -/
inductive FetchOutcome where
  | panicked : FetchOutcome
  | err : Chars → FetchOutcome
  | ok : List (Chars × Chars) → FetchOutcome
deriving DecidableEq, Repr

/-- One step of the link scan (lines 198-207): a `log` anchor is adopted
only while no link is chosen yet; an anchor whose text starts with
`build ` is adopted unconditionally. Either adoption copies the anchor's
`href` attribute, which may itself be absent. -/
def linkStep (acc : Option Chars) (l : Html) : Option Chars :=
  let acc1 := if acc.isNone && (nodeText l == sLog) then attrOf sHref l else acc
  if sBuildSp.isPrefixOf (nodeText l) then attrOf sHref l else acc1

/-- The chosen href after scanning all anchor descendants in order. -/
def chooseLink (links : List Html) : Option Chars :=
  links.foldl linkStep none

/-- `HashMap::insert` on an association-list model: any previous binding of
the key is dropped and the new binding appended. -/
def insertAL (k v : Chars) (m : List (Chars × Chars)) : List (Chars × Chars) :=
  m.filter (fun p => !(p.1 == k)) ++ [(k, v)]

def lookupAL (k : Chars) (m : List (Chars × Chars)) : Option Chars :=
  (m.find? (fun p => p.1 == k)).map (fun p => p.2)

def countKey (k : Chars) (m : List (Chars × Chars)) : Nat :=
  m.countP (fun p => p.1 == k)

/-- The serialized record `"{path_name};{arch};{build_id}"` (line 228). -/
def recordLine (pathName arch buildId : Chars) : Chars :=
  pathName ++ sSemi ++ arch ++ sSemi ++ buildId

/-- The portion of a store-path text before the first comma:
`store_path.split(',').next().unwrap()` (line 218, never panics since
`split` yields at least one part). -/
def firstCommaPart (s : Chars) : Chars :=
  match splitCh ',' s with
  | [] => []
  | a :: _ => a

/-- Column `i` of a row: the `i`-th `<td>` descendant in document order
(the source indexes the collected vector directly; all uses are guarded by
the length-5 check). -/
def getCol (row : Html) (i : Nat) : Html :=
  (findDesc (isNamed sTd) row).getD i (Html.text [])

/-- Processing of one row of the build-steps table (lines 186-230):
collect `<td>` descendants, require exactly 5, require a status containing
`Failed` or `Cached`, choose a link, extract the store path from the first
`<tt>` of column 1, slice off its first 44 bytes, and take token 4 of the
chosen href split on `/`. -/
def processRow (arch : Chars) (row : Html) : RowOutcome :=
  if (findDesc (isNamed sTd) row).length ≠ 5 then .skipped
  else if !(isSubstr sFailed (nodeText (getCol row 4))
            || isSubstr sCached (nodeText (getCol row 4))) then .skipped
  else
    match chooseLink (findDesc (isNamed sAnchor) (getCol row 4)) with
    | none => .skipped
    | some href =>
      match (findDesc (isNamed sTt) (getCol row 1)).head? with
      | none => .err sNoStorePath
      | some ttn =>
        match utf8DropBytes 44 (firstCommaPart (nodeText ttn)) with
        | none => .panicked
        | some pathName =>
          match (splitCh '/' href)[4]? with
          | none => .err sNoBuildId
          | some buildId =>
            .record (firstCommaPart (nodeText ttn)) (recordLine pathName arch buildId)

/-- The row loop: rows are processed in order, records are inserted into the
per-build map, a panic or error aborts the worker. -/
def processRows (arch : Chars) (rows : List Html) (acc : List (Chars × Chars)) :
    FetchOutcome :=
  match rows with
  | [] => .ok acc
  | r :: rest =>
    match processRow arch r with
    | .skipped => processRows arch rest acc
    | .panicked => .panicked
    | .err m => .err m
    | .record k v => processRows arch rest (insertAL k v acc)

/-- Architecture extraction (lines 169-174): text of the first `<tt>` node
having an ancestor with class `info-table`. -/
def archOf (doc : HtmlForest) : Option Chars :=
  ((descQueryForest (hasClass sInfoTable) (isNamed sTt) false doc).head?).map nodeText

/-- Steps-table location (lines 178-184): the first `<table>` with class
`clickable-rows` having an ancestor with id `tabs-buildsteps`. -/
def stepsTableOf (doc : HtmlForest) : Option Html :=
  (descQueryForest (attrEq sId sTabsBuildsteps)
    (fun h => isNamed sTableTag h && hasClass sClickableRows h) false doc).head?

/-- The rows iterated by the worker: `<tr>` descendants of the steps table. -/
def docRows (doc : HtmlForest) : List Html :=
  match stepsTableOf doc with
  | none => []
  | some tbl => findDesc (isNamed sTr) tbl

/-- The architecture string attached to every record of the page. -/
def docArch (doc : HtmlForest) : Chars := (archOf doc).getD []

/-- The pure body of `fetch_failed_deps_of` on an already-parsed page. -/
def fetchFailedDepsOf (doc : HtmlForest) : FetchOutcome :=
  match archOf doc with
  | none => .err sNoArch
  | some arch =>
    match stepsTableOf doc with
    | none => .err sNoSteps
    | some tbl => processRows arch (findDesc (isNamed sTr) tbl) []

/-- The bytes a successful worker appends to the shared file (lines
236-242): each record value followed by a newline; workers that end in an
error write nothing. -/
def fetchWrites (doc : HtmlForest) : Chars :=
  match fetchFailedDepsOf doc with
  | .ok recs => concatAll (recs.map (fun p => p.2 ++ [Char.ofNat 10]))
  | _ => []

/-- Published content of `<e>.cache` for a single-evaluation run that
terminates: `none` when the input is rejected, when no builds are found (the
spawn-and-rename block is skipped), or when a worker panics (the wait group
never drains, so the run never completes). Workers are drained sequentially
here, which fixes one of the unspecified record orders. -/
def evalOutputContent (pages : Nat → HtmlForest) (cacheContent : Chars) :
    Option Chars :=
  match readEvalCache (some cacheContent) with
  | .ok ids =>
    if ids.isEmpty then none
    else if ids.any (fun b =>
        match fetchFailedDepsOf (pages b) with
        | .panicked => true
        | _ => false) then none
    else some (concatAll (ids.map (fun b => fetchWrites (pages b))))
  | _ => none

def sArchLinux : Chars := ("arch-linux").toList

def e1CacheContent : Chars := ("x 7 y z Dependency failed\n").toList

def e1StorePathText : Chars :=
  ("/nix/store/aaaaaaaaaaaaaaaaaaaaaaaaaaaaaaaa-bbbbbbbbbbbb-pkg,foo").toList

/-- The single 5-column `Failed` row of scenario E1, with the given href on
its `log` anchor. -/
def e1Row (href : Chars) : Html :=
  .elem sTr [] (forestOf [
    .elem sTd [] .fnil,
    .elem sTd [] (forestOf [.elem sTt [] (forestOf [.text e1StorePathText])]),
    .elem sTd [] .fnil,
    .elem sTd [] .fnil,
    .elem sTd [] (forestOf [.text ("Failed").toList,
      .elem sAnchor [(sHref, href)] (forestOf [.text sLog])])])

/-- The build page of scenario E1: an `info-table` element holding
`<tt>arch-linux</tt>` and the build-steps table with one row. -/
def e1Doc (href : Chars) : HtmlForest :=
  forestOf [
    .elem ("div").toList [(sClass, sInfoTable)]
      (forestOf [.elem sTt [] (forestOf [.text sArchLinux])]),
    .elem ("div").toList [(sId, sTabsBuildsteps)]
      (forestOf [.elem sTableTag [(sClass, sClickableRows)]
        (forestOf [e1Row href])])]

def hrefRel : Chars := ("/build/42").toList

def hrefAbs : Chars := ("https://hydra.nixos.org/build/42").toList

def e1Pages (href : Chars) : Nat → HtmlForest :=
  fun b => if b == 7 then e1Doc href else .fnil

def wsP : Char → Bool := fun c => c.isWhitespace

/-- Modelled from the claim's words for C4: the reader loop but with lines
split into at most 5 WHITESPACE-separated parts. The code itself splits on
the space character only (`splitn(5, ' ')`). -/
def processLinesWs : List Chars → ReaderOutcome
  | [] => .ok []
  | line :: rest =>
    if line = [] then processLinesWs rest
    else
      match (splitnP 5 wsP line)[4]? with
      | none => .panicked
      | some p4 =>
        if p4 = sDepFailed then
          match (splitnP 5 wsP line)[1]? with
          | none => .panicked
          | some p1 =>
            match parseU64 p1 with
            | none => .malformed
            | some id =>
              match processLinesWs rest with
              | .ok ids => .ok (id :: ids)
              | o => o
        else processLinesWs rest

/-- The whitespace-splitting reader on a whole file. -/
def readEvalCacheWs : Option Chars → ReaderOutcome
  | none => .sourceMissing
  | some content => processLinesWs (splitCh '\n' content)

def c4TabContent : Chars := ("x\t7 y z Dependency failed\n").toList

/-- A line contributes when it is non-empty and its 5th space-separated
part is exactly `Dependency failed`. -/
def contribLine (l : Chars) : Bool :=
  !l.isEmpty && ((splitnP 5 spaceP l)[4]? == some sDepFailed)

/-- The parse results of the 2nd parts of all contributing lines. -/
def contribIds (ls : List Chars) : List (Option Nat) :=
  (ls.filter contribLine).map (fun l => ((splitnP 5 spaceP l)[1]?).bind parseU64)

/-- The Input Reader contract of spec 4.1, amended to single-space
separators: emit the parsed 2nd parts of contributing lines, failing with
Malformed-Input when any of them does not parse as `u64`. -/
def readerContractLines (ls : List Chars) : ReaderOutcome :=
  if (contribIds ls).all Option.isSome then .ok (contribIds ls).reduceOption
  else .malformed

def readerContract (content : Chars) : ReaderOutcome :=
  readerContractLines (splitCh '\n' content)

/-- The children of a node as a list. -/
def childListOf : HtmlForest → List Html
  | .fnil => []
  | .fcons h t => h :: childListOf t

/-- Modelled from the spec's words for C5: the row's DIRECT `<td>`
children. The code instead collects all `<td>` descendants of the row. -/
def directTdChildren : Html → List Html
  | .text _ => []
  | .elem _ _ cs => (childListOf cs).filter (isNamed sTd)

def href43 : Chars := ("https://hydra.nixos.org/build/43").toList

/-- A row with 4 direct `<td>` children, the first of which contains a
nested `<td>` holding the store path: the code sees 5 `<td>` descendants
and produces a record. -/
def c5Row : Html :=
  .elem sTr [] (forestOf [
    .elem sTd [] (forestOf [
      .elem sTd [] (forestOf [.elem sTt [] (forestOf [.text e1StorePathText])])]),
    .elem sTd [] .fnil,
    .elem sTd [] .fnil,
    .elem sTd [] (forestOf [.text ("Failed").toList,
      .elem sAnchor [(sHref, href43)] (forestOf [.text sLog])])])

def hrefBuild99 : Chars := ("https://hydra.nixos.org/build/99").toList

def logAnchorE2 : Html :=
  .elem sAnchor [(sHref, hrefAbs)] (forestOf [.text sLog])

def buildAnchorE2 : Html :=
  .elem sAnchor [(sHref, hrefBuild99)] (forestOf [.text ("build 99").toList])

/-- The E2 row: status column holds the `log` anchor and then the
`build 99` anchor. -/
def e2Row : Html :=
  .elem sTr [] (forestOf [
    .elem sTd [] .fnil,
    .elem sTd [] (forestOf [.elem sTt [] (forestOf [.text e1StorePathText])]),
    .elem sTd [] .fnil,
    .elem sTd [] .fnil,
    .elem sTd [] (forestOf [.text ("Failed").toList, logAnchorE2,
      buildAnchorE2])])

/-- Continuation of the row loop after a prefix of rows. -/
def contRows (arch : Chars) (ys : List Html) : FetchOutcome → FetchOutcome
  | .ok m => processRows arch ys m
  | o => o

def shortStorePathText : Chars := ("/nix/store/short").toList

/-- A qualifying row whose store path is only 16 bytes long. -/
def c10Row : Html :=
  .elem sTr [] (forestOf [
    .elem sTd [] .fnil,
    .elem sTd [] (forestOf [.elem sTt [] (forestOf [.text shortStorePathText])]),
    .elem sTd [] .fnil,
    .elem sTd [] .fnil,
    .elem sTd [] (forestOf [.text ("Failed").toList,
      .elem sAnchor [(sHref, hrefAbs)] (forestOf [.text sLog])])])

def c10Ttn : Html := .elem sTt [] (forestOf [.text shortStorePathText])

/-- The store path the worker extracts from a row: text of the first `<tt>`
descendant of column 1, cut at the first comma. -/
def rowStorePath (row : Html) : Chars :=
  firstCommaPart (nodeText
    (((findDesc (isNamed sTt) (getCol row 1)).head?).getD (Html.text [])))

/-- The `path_name` the worker derives: bytes 44.. of the store path. -/
def rowPathName (row : Html) : Chars :=
  (utf8DropBytes 44 (rowStorePath row)).getD []

/-- The origin-build token the worker takes: token 4 of the chosen href
split on `/`. -/
def rowOrigin (row : Html) : Chars :=
  ((chooseLink (findDesc (isNamed sAnchor) (getCol row 4))).bind
    (fun h => (splitCh '/' h)[4]?)).getD []

/-- The line grammar of the spec: `^[^;]+;[^;]+;[0-9]+$` — exactly three
semicolon-free fields, all non-empty, the third all decimal digits. -/
def matchesGrammar (l : Chars) : Bool :=
  match splitCh ';' l with
  | [a, b, c] => !a.isEmpty && !b.isEmpty && !c.isEmpty && c.all Char.isDigit
  | _ => false

/-- Whether a record-producing row's extracted components are non-empty,
semicolon-free (path name and architecture) and numeric (origin token).
Rows producing no record are vacuously clean; the code never checks any of
this on the scraped HTML. -/
def cleanRow (arch : Chars) (row : Html) : Bool :=
  match processRow arch row with
  | .record _ _ =>
    !(rowPathName row).isEmpty && (rowPathName row).all (fun c => !(c == ';'))
      && !arch.isEmpty && arch.all (fun c => !(c == ';'))
      && !(rowOrigin row).isEmpty && (rowOrigin row).all Char.isDigit
  | _ => true

def c3ArchText : Chars := ("arch;linux").toList

/-- The E1 page but with architecture text `arch;linux`. -/
def c3Doc : HtmlForest :=
  forestOf [
    .elem ("div").toList [(sClass, sInfoTable)]
      (forestOf [.elem sTt [] (forestOf [.text c3ArchText])]),
    .elem ("div").toList [(sId, sTabsBuildsteps)]
      (forestOf [.elem sTableTag [(sClass, sClickableRows)]
        (forestOf [e1Row hrefAbs])])]

def c3Line : Chars := ("bbbbbbbbbbbb-pkg;arch;linux;42").toList

/-- State of a single-evaluation run with `k` workers: whether
`<e>.cache.new` has been created, how many workers have been spawned,
whether the rename to `<e>.cache` has happened, how many workers have
completed, and the lines written so far to the file's inode (reachable
under either name, since the workers hold the open handle across the
rename). -/
structure RunSt where
  created : Bool
  spawned : Nat
  renamed : Bool
  doneW : Nat
  content : List Chars
deriving DecidableEq

def runInit : RunSt := ⟨false, 0, false, 0, []⟩

/-- One step of the run, over-approximating the task interleavings of
`main` lines 72-98: the main thread creates `<e>.cache.new` (line 75),
spawns each worker (line 79), and renames to `<e>.cache` right after the
spawn loop (line 89); any spawned, uncompleted worker may append a line or
complete. -/
inductive RStep (k : Nat) : RunSt → RunSt → Prop where
  | mkfile : ∀ s : RunSt, s.created = false →
      RStep k s ⟨true, s.spawned, s.renamed, s.doneW, s.content⟩
  | spawn : ∀ s : RunSt, s.created = true → s.renamed = false →
      s.spawned < k →
      RStep k s ⟨s.created, s.spawned + 1, s.renamed, s.doneW, s.content⟩
  | publish : ∀ s : RunSt, s.created = true → s.renamed = false →
      s.spawned = k →
      RStep k s ⟨s.created, s.spawned, true, s.doneW, s.content⟩
  | wwrite : ∀ (s : RunSt) (l : Chars), s.doneW < s.spawned →
      RStep k s ⟨s.created, s.spawned, s.renamed, s.doneW, s.content ++ [l]⟩
  | wdone : ∀ s : RunSt, s.doneW < s.spawned →
      RStep k s ⟨s.created, s.spawned, s.renamed, s.doneW + 1, s.content⟩

/-- Reachable states of a single-evaluation run. -/
inductive Reach (k : Nat) : RunSt → Prop where
  | start : Reach k runInit
  | next : ∀ s s2 : RunSt, Reach k s → RStep k s s2 → Reach k s2

/-- `<e>.cache.new` exists from creation until the rename. -/
def newExistsB (s : RunSt) : Bool := s.created && !s.renamed

/-- `<e>.cache` exists from the rename on. -/
def cacheExistsB (s : RunSt) : Bool := s.renamed

/-- A state of a 1-build run in which the output file is already published
while the worker has neither written nor completed. -/
def stPub : RunSt := ⟨true, 1, true, 0, []⟩

def sCacheSuffix : Chars := (".cache").toList

/-- Rust `str::strip_suffix`. -/
def stripSuffix? (s suf : Chars) : Option Chars :=
  if suf.isSuffixOf s then some (s.take (s.length - suf.length)) else none

/-- Whether the purge loop (lines 103-132) keeps a directory entry: keep
names not ending in `.cache`; otherwise strip the suffix (the `none`
branch is unreachable under the suffix guard; in the source it is a
process-aborting error) and parse the stem as `u64`, keeping entries whose
stem does not parse; delete `<id>.cache` exactly when `id` is not in the
requested set. -/
def purgeKeep (argv : List Nat) (name : Chars) : Bool :=
  if !(sCacheSuffix.isSuffixOf name) then true
  else
    match stripSuffix? name sCacheSuffix with
    | none => true
    | some stem =>
      match parseU64 stem with
      | none => true
      | some id => decide (id ∈ argv)

/-- The surviving directory entries after the purge. -/
def purgeDir (argv : List Nat) (dir : List Chars) : List Chars :=
  dir.filter (purgeKeep argv)

/-- The numeric identifier of a `.cache` entry, when the name has the
suffix and the stem parses. -/
def stemParse (name : Chars) : Option Nat :=
  (stripSuffix? name sCacheSuffix).bind parseU64

/-! ## Theorems: the claims and their supporting lemmas -/

theorem processLines_append (xs ys : List Chars) :
    processLines (xs ++ ys) = seqOutcome (processLines xs) (processLines ys) := by
  induction xs with
  | nil =>
    cases h : processLines ys <;> simp [processLines, seqOutcome, h]
  | cons l rest ih =>
    by_cases hl : l = []
    · simp [processLines, hl, ih]
    · simp only [List.cons_append, processLines, hl, if_false]
      cases h4 : (splitnP 5 spaceP l)[4]? with
      | none => simp [seqOutcome]
      | some p4 =>
        by_cases hp4 : p4 = sDepFailed
        · simp only [hp4, if_true]
          cases h1 : (splitnP 5 spaceP l)[1]? with
          | none => simp [seqOutcome]
          | some p1 =>
            cases hp : parseU64 p1 with
            | none => simp [hp, seqOutcome]
            | some id =>
              simp only [hp, List.append_eq]
              rw [ih]
              cases hxs : processLines rest <;>
                cases hys : processLines ys <;> simp [seqOutcome]
        · simp [hp4, ih]

/-- C1 counterexample: on scenario E1 exactly as stated — the chosen anchor
href being the relative `/build/42` — splitting the href on `/` yields
`["", "build", "42"]`, which has no index-4 token, so the worker aborts
with the `No build ID found` error and the published `100.cache` is empty
rather than containing `bbbbbbbbbbbb-pkg;arch-linux;42\n`. -/
theorem claim_c1_cex :
    fetchFailedDepsOf (e1Doc hrefRel) = .err sNoBuildId ∧
    evalOutputContent (e1Pages hrefRel) e1CacheContent = some [] ∧
    ("bbbbbbbbbbbb-pkg;arch-linux;42\n").toList ≠ ([] : Chars) := by
  refine ⟨by decide, by decide, by decide⟩

/-- C1 (amended): in scenario E1 with the log anchor's href given as the
absolute URL `https://hydra.nixos.org/build/42` — the form the index-4
token rule presupposes — the run over request `[100]` publishes a
`100.cache` whose content is exactly
`bbbbbbbbbbbb-pkg;arch-linux;42\n`, the origin build id `42` being token
index 4 of the href split on `/`. -/
theorem claim_c1 :
    evalOutputContent (e1Pages hrefAbs) e1CacheContent =
      some (("bbbbbbbbbbbb-pkg;arch-linux;42\n").toList) ∧
    (splitCh '/' hrefAbs)[4]? = some (("42").toList) := by
  refine ⟨by decide, by decide⟩

/-- C4 counterexample: on the line `x<TAB>7 y z Dependency failed` the 5th
whitespace-separated part is exactly `Dependency failed`, so the claimed
rule emits BuildId 7; the code, splitting on the space character only,
sees 5th part `failed` and emits nothing. -/
theorem claim_c4_cex :
    readEvalCacheWs (some c4TabContent) = .ok [7] ∧
    readEvalCache (some c4TabContent) = .ok [] := by
  exact ⟨by decide, by decide⟩

theorem processLines_contract (ls : List Chars)
    (hwf : ∀ l ∈ ls, l ≠ [] → (splitnP 5 spaceP l).length = 5) :
    processLines ls = readerContractLines ls := by
  induction ls with
  | nil => rfl
  | cons l rest ih =>
    have hrest : ∀ l2 ∈ rest, l2 ≠ [] → (splitnP 5 spaceP l2).length = 5 :=
      fun l2 h2 => hwf l2 (List.mem_cons_of_mem _ h2)
    by_cases hl : l = []
    · subst hl
      have h1 : processLines ([] :: rest) = processLines rest := by
        simp [processLines]
      have h2 : contribIds ([] :: rest) = contribIds rest := by
        simp [contribIds, List.filter_cons, contribLine]
      rw [h1, ih hrest]
      simp only [readerContractLines, h2]
    · have h5 : (splitnP 5 spaceP l).length = 5 := hwf l (List.mem_cons_self _ _) hl
      cases hp4 : (splitnP 5 spaceP l)[4]? with
      | none => exact absurd (List.getElem?_eq_none_iff.mp hp4) (by omega)
      | some p4 =>
        by_cases hdep : p4 = sDepFailed
        · cases hp1 : (splitnP 5 spaceP l)[1]? with
          | none => exact absurd (List.getElem?_eq_none_iff.mp hp1) (by omega)
          | some p1 =>
            have hc : contribLine l = true := by
              simp [contribLine, hp4, hdep, hl]
            have hids : contribIds (l :: rest) = parseU64 p1 :: contribIds rest := by
              simp [contribIds, List.filter_cons, hc, hp1]
            cases hpp : parseU64 p1 with
            | none =>
              have hlhs : processLines (l :: rest) = .malformed := by
                simp [processLines, hl, hp4, hdep, hp1, hpp]
              rw [hlhs]
              simp [readerContractLines, hids, hpp]
            | some id =>
              have hlhs : processLines (l :: rest) =
                  (match processLines rest with
                   | .ok ids => .ok (id :: ids)
                   | o => o) := by
                simp [processLines, hl, hp4, hdep, hp1, hpp]
              rw [hlhs, ih hrest]
              by_cases hall : (contribIds rest).all Option.isSome
              · simp [readerContractLines, hids, hpp, hall]
              · simp [readerContractLines, hids, hpp, hall]
        · have hc : contribLine l = false := by
            simp [contribLine, hp4, hdep]
          have hids : contribIds (l :: rest) = contribIds rest := by
            simp [contribIds, List.filter_cons, hc]
          have hlhs : processLines (l :: rest) = processLines rest := by
            simp [processLines, hl, hp4, hdep]
          rw [hlhs, ih hrest]
          simp only [readerContractLines, hids]

/-- C4 (amended): the Input Reader contract holds with parts separated by
single space characters (not arbitrary whitespace), and under the
precondition that every non-empty line splits into exactly 5 such parts
(lines with fewer parts panic instead, claim C9): the reader emits the
parsed 2nd part of exactly the lines whose 5th part is the literal
`Dependency failed`, fails with Malformed-Input when a contributing 2nd
field does not parse as `u64`, and with Source-Missing when the file is
absent. -/
theorem claim_c4 (content : Chars)
    (hwf : ∀ l ∈ splitCh '\n' content, l ≠ [] → (splitnP 5 spaceP l).length = 5) :
    readEvalCache (some content) = readerContract content ∧
    readEvalCache none = .sourceMissing :=
  ⟨processLines_contract _ hwf, rfl⟩

theorem claim_c4_witness :
    readEvalCache (some e1CacheContent) = readerContract e1CacheContent ∧
    readEvalCache none = .sourceMissing :=
  claim_c4 e1CacheContent (by decide)

/-- C9: a non-empty eval-cache line with fewer than 5 space-separated parts
makes `parts[4]` an out-of-bounds index: once the loop reaches that line
(all earlier lines having been processed successfully), the reader panics
instead of skipping the line or reporting a Malformed-Input error. -/
theorem claim_c9 (content : Chars) (pre post : List Chars) (line : Chars)
    (ids : List Nat)
    (hsplit : splitCh '\n' content = pre ++ line :: post)
    (hpre : processLines pre = .ok ids)
    (hne : line ≠ [])
    (hshort : (splitnP 5 spaceP line).length < 5) :
    readEvalCache (some content) = .panicked := by
  show processLines (splitCh '\n' content) = .panicked
  rw [hsplit, processLines_append, hpre]
  have h4 : (splitnP 5 spaceP line)[4]? = none :=
    List.getElem?_eq_none (by omega)
  simp [processLines, hne, h4, seqOutcome]

theorem claim_c9_witness :
    readEvalCache (some (("abc").toList)) = .panicked :=
  claim_c9 (("abc").toList) [] [] (("abc").toList) []
    (by decide) rfl (by decide) (by decide)

/-- C5 (amended): a record is produced only when the row's count of `<td>`
DESCENDANTS (at any depth, in document order) is exactly 5; rows with any
other descendant count are skipped. -/
theorem claim_c5 (arch : Chars) (row : Html)
    (h : (findDesc (isNamed sTd) row).length ≠ 5) :
    processRow arch row = .skipped := by
  unfold processRow
  rw [if_pos h]

/-- C5 counterexample: `c5Row` has 4 direct `<td>` children yet produces a
record, because the code counts `<td>` descendants (here 5), not direct
children. -/
theorem claim_c5_cex :
    processRow sArchLinux c5Row =
      .record (firstCommaPart e1StorePathText)
        (("bbbbbbbbbbbb-pkg;arch-linux;43").toList) ∧
    (directTdChildren c5Row).length = 4 := by
  exact ⟨by decide, by decide⟩

theorem claim_c5_witness :
    processRow sArchLinux (Html.elem sTr [] .fnil) = .skipped :=
  claim_c5 sArchLinux (Html.elem sTr [] .fnil) (by decide)

theorem foldl_linkStep_some_of_no_build (h : Chars) (ls : List Html)
    (hnb : ∀ l ∈ ls, sBuildSp.isPrefixOf (nodeText l) = false) :
    List.foldl linkStep (some h) ls = some h := by
  induction ls with
  | nil => rfl
  | cons a t ih =>
    have ha := hnb a (List.mem_cons_self _ _)
    have hstep : linkStep (some h) a = some h := by
      simp [linkStep, ha]
    rw [List.foldl_cons, hstep,
      ih (fun l hl => hnb l (List.mem_cons_of_mem _ hl))]

/-- C6: if a qualifying row's status column contains a `log` anchor and a
single anchor whose text starts with `build ` carrying href `hb`, then
whatever the order of the anchors, the scan chooses `hb` and the record's
origin-build component is token 4 of `hb` split on `/`, not the id from
the `log` href. -/
theorem claim_c6 (row : Html) (pre post : List Html) (a : Html)
    (hb o : Chars)
    (hanch : findDesc (isNamed sAnchor) (getCol row 4) = pre ++ a :: post)
    (hlog : ∃ l ∈ pre ++ a :: post, nodeText l = sLog)
    (hatext : sBuildSp.isPrefixOf (nodeText a) = true)
    (hahref : attrOf sHref a = some hb)
    (hpre : ∀ l ∈ pre, sBuildSp.isPrefixOf (nodeText l) = false)
    (hpost : ∀ l ∈ post, sBuildSp.isPrefixOf (nodeText l) = false)
    (ho : (splitCh '/' hb)[4]? = some o) :
    chooseLink (pre ++ a :: post) = some hb ∧ rowOrigin row = o := by
  have hmain : chooseLink (pre ++ a :: post) = some hb := by
    unfold chooseLink
    rw [List.foldl_append, List.foldl_cons]
    have hstep : linkStep (List.foldl linkStep none pre) a = some hb := by
      simp [linkStep, hatext, hahref]
    rw [hstep]
    exact foldl_linkStep_some_of_no_build hb post hpost
  refine ⟨hmain, ?_⟩
  unfold rowOrigin
  rw [hanch, hmain]
  simp [ho]

theorem claim_c6_witness :
    chooseLink ([logAnchorE2] ++ buildAnchorE2 :: []) = some hrefBuild99 ∧
    rowOrigin e2Row = ("99").toList :=
  claim_c6 e2Row [logAnchorE2] [] buildAnchorE2 hrefBuild99 (("99").toList)
    rfl
    ⟨logAnchorE2, List.mem_cons_self _ _, by decide⟩
    (by decide) (by decide)
    (fun l hl => by rw [List.mem_singleton] at hl; subst hl; decide)
    (fun l hl => absurd hl (List.not_mem_nil l))
    (by decide)

theorem processRows_append (arch : Chars) (xs ys : List Html)
    (m : List (Chars × Chars)) :
    processRows arch (xs ++ ys) m = contRows arch ys (processRows arch xs m) := by
  induction xs generalizing m with
  | nil => rfl
  | cons r rest ih =>
    cases hr : processRow arch r <;> simp [processRows, hr, ih, contRows]

theorem find?_filter_self (k : Chars) (m : List (Chars × Chars)) :
    (m.filter (fun p => !(p.1 == k))).find? (fun p => p.1 == k) = none := by
  induction m with
  | nil => rfl
  | cons p t ih =>
    by_cases hp : p.1 == k
    · simp [List.filter_cons, hp, ih]
    · simp only [List.filter_cons]
      rw [if_pos (by simp [hp])]
      rw [List.find?_cons_of_neg _ (by simp [hp])]
      exact ih

theorem lookupAL_insert_self (k v : Chars) (m : List (Chars × Chars)) :
    lookupAL k (insertAL k v m) = some v := by
  unfold lookupAL insertAL
  rw [List.find?_append, find?_filter_self]
  simp [List.find?]

theorem countP_filter_self (k : Chars) (m : List (Chars × Chars)) :
    (m.filter (fun p => !(p.1 == k))).countP (fun p => p.1 == k) = 0 := by
  induction m with
  | nil => rfl
  | cons p t ih =>
    by_cases hp : p.1 == k
    · simp [List.filter_cons, hp, ih]
    · simp only [List.filter_cons]
      rw [if_pos (by simp [hp])]
      rw [List.countP_cons_of_neg _ _ (by simp [hp])]
      exact ih

theorem countKey_insert_self (k v : Chars) (m : List (Chars × Chars)) :
    countKey k (insertAL k v m) = 1 := by
  unfold countKey insertAL
  rw [List.countP_append, countP_filter_self]
  simp [List.countP_cons]

theorem find?_filter_other (k k2 : Chars) (hne : k ≠ k2)
    (m : List (Chars × Chars)) :
    (m.filter (fun p => !(p.1 == k2))).find? (fun p => p.1 == k)
      = m.find? (fun p => p.1 == k) := by
  induction m with
  | nil => rfl
  | cons p t ih =>
    by_cases hp2 : p.1 = k2
    · have hpk : (p.1 == k) = false := by
        simp [hp2]
        exact fun h => hne h.symm
      simp only [List.filter_cons]
      rw [if_neg (by simp [hp2])]
      rw [List.find?_cons_of_neg _ (by simp [hpk]), ih]
    · simp only [List.filter_cons]
      rw [if_pos (by simp [hp2])]
      by_cases hpk : p.1 == k
      · rw [List.find?_cons_of_pos _ (by simp [hpk]),
          List.find?_cons_of_pos _ (by simp [hpk])]
      · rw [List.find?_cons_of_neg _ (by simp [hpk]),
          List.find?_cons_of_neg _ (by simp [hpk]), ih]

theorem lookupAL_insert_other (k k2 v : Chars) (hne : k ≠ k2)
    (m : List (Chars × Chars)) :
    lookupAL k (insertAL k2 v m) = lookupAL k m := by
  unfold lookupAL insertAL
  rw [List.find?_append, find?_filter_other k k2 hne]
  cases hf : m.find? (fun p => p.1 == k) with
  | none =>
    rw [List.find?_cons_of_neg _ (by simp; exact fun h => hne h.symm)]
    rfl
  | some p => rfl

theorem countP_filter_other (k k2 : Chars) (hne : k ≠ k2)
    (m : List (Chars × Chars)) :
    (m.filter (fun p => !(p.1 == k2))).countP (fun p => p.1 == k)
      = m.countP (fun p => p.1 == k) := by
  induction m with
  | nil => rfl
  | cons p t ih =>
    by_cases hp2 : p.1 = k2
    · have hpk : (p.1 == k) = false := by
        simp [hp2]
        exact fun h => hne h.symm
      simp only [List.filter_cons]
      rw [if_neg (by simp [hp2])]
      rw [List.countP_cons_of_neg _ _ (by simp [hpk]), ih]
    · simp only [List.filter_cons]
      rw [if_pos (by simp [hp2])]
      by_cases hpk : p.1 == k
      · rw [List.countP_cons_of_pos _ _ (by simp [hpk]),
          List.countP_cons_of_pos _ _ (by simp [hpk]), ih]
      · rw [List.countP_cons_of_neg _ _ (by simp [hpk]),
          List.countP_cons_of_neg _ _ (by simp [hpk]), ih]

theorem countKey_insert_other (k k2 v : Chars) (hne : k ≠ k2)
    (m : List (Chars × Chars)) :
    countKey k (insertAL k2 v m) = countKey k m := by
  unfold countKey insertAL
  rw [List.countP_append, countP_filter_other k k2 hne]
  have hz : List.countP (fun p => p.1 == k) [(k2, v)] = 0 := by
    simp [List.countP_cons]
    exact fun h => hne h.symm
  rw [hz]
  omega

theorem processRows_preserve (arch : Chars) (post : List Html) (k : Chars)
    (m recs : List (Chars × Chars))
    (hpost : ∀ r ∈ post, ∀ v2, processRow arch r ≠ .record k v2)
    (hok : processRows arch post m = .ok recs) :
    lookupAL k recs = lookupAL k m ∧ countKey k recs = countKey k m := by
  induction post generalizing m with
  | nil =>
    have : m = recs := by
      simpa [processRows] using hok
    rw [this]
    exact ⟨rfl, rfl⟩
  | cons r rest ih =>
    have hrest : ∀ r2 ∈ rest, ∀ v2, processRow arch r2 ≠ .record k v2 :=
      fun r2 h2 => hpost r2 (List.mem_cons_of_mem _ h2)
    cases hr : processRow arch r with
    | skipped =>
      rw [processRows, hr] at hok
      exact ih m hrest hok
    | panicked => rw [processRows, hr] at hok; cases hok
    | err m2 => rw [processRows, hr] at hok; cases hok
    | record k2 v2 =>
      have hk2 : k ≠ k2 := by
        intro heq
        exact hpost r (List.mem_cons_self _ _) v2 (heq ▸ hr)
      rw [processRows, hr] at hok
      obtain ⟨h1, h2⟩ := ih (insertAL k2 v2 m) hrest hok
      rw [h1, h2, lookupAL_insert_other k k2 v2 hk2,
        countKey_insert_other k k2 v2 hk2]
      exact ⟨rfl, rfl⟩

/-- C7: within one build page, when a row `r` produces a record for store
path `k` and no later row produces a record for `k`, the final map holds
exactly one entry for `k`, whose value comes from `r` — insertion
overwrites any earlier entry for the same store path. -/
theorem claim_c7 (arch : Chars) (pre post : List Html) (r : Html)
    (k v : Chars) (recs : List (Chars × Chars))
    (hr : processRow arch r = .record k v)
    (hpost : ∀ r2 ∈ post, ∀ v2, processRow arch r2 ≠ .record k v2)
    (hok : processRows arch (pre ++ r :: post) [] = .ok recs) :
    lookupAL k recs = some v ∧ countKey k recs = 1 := by
  rw [processRows_append] at hok
  cases hpre : processRows arch pre [] with
  | panicked => rw [hpre] at hok; cases hok
  | err m2 => rw [hpre] at hok; cases hok
  | ok m1 =>
    rw [hpre] at hok
    have hok2 : processRows arch post (insertAL k v m1) = .ok recs := by
      rw [contRows, processRows, hr] at hok
      exact hok
    obtain ⟨h1, h2⟩ := processRows_preserve arch post k _ recs hpost hok2
    rw [h1, h2, lookupAL_insert_self, countKey_insert_self]
    exact ⟨rfl, rfl⟩

theorem claim_c7_witness :
    lookupAL (firstCommaPart e1StorePathText)
      [(firstCommaPart e1StorePathText,
        ("bbbbbbbbbbbb-pkg;arch-linux;42").toList)]
      = some (("bbbbbbbbbbbb-pkg;arch-linux;42").toList) ∧
    countKey (firstCommaPart e1StorePathText)
      [(firstCommaPart e1StorePathText,
        ("bbbbbbbbbbbb-pkg;arch-linux;42").toList)] = 1 :=
  claim_c7 sArchLinux [] [] (e1Row hrefAbs)
    (firstCommaPart e1StorePathText)
    (("bbbbbbbbbbbb-pkg;arch-linux;42").toList) _
    (by decide)
    (fun r2 h2 => absurd h2 (List.not_mem_nil r2))
    (by decide)

theorem utf8DropBytes_eq_some (n : Nat) (s q : Chars)
    (h : utf8DropBytes n s = some q) :
    ∃ p, s = p ++ q ∧ utf8Len p = n := by
  induction s generalizing n with
  | nil =>
    cases n with
    | zero =>
      have hq : ([] : Chars) = q := by simpa [utf8DropBytes] using h
      exact ⟨[], by rw [← hq]; rfl, rfl⟩
    | succ n => simp [utf8DropBytes] at h
  | cons c cs ih =>
    cases n with
    | zero =>
      have hq : q = c :: cs := by
        have := h
        simp [utf8DropBytes] at this
        exact this.symm
      exact ⟨[], by rw [hq]; rfl, rfl⟩
    | succ n =>
      by_cases hle : c.utf8Size ≤ n + 1
      · rw [utf8DropBytes, if_pos hle] at h
        obtain ⟨p, hpq, hlen⟩ := ih _ h
        refine ⟨c :: p, by rw [List.cons_append, hpq], ?_⟩
        rw [utf8Len, hlen]
        omega
      · rw [utf8DropBytes, if_neg hle] at h
        cases h

theorem utf8DropBytes_of_prefix (p q : Chars) :
    utf8DropBytes (utf8Len p) (p ++ q) = some q := by
  induction p with
  | nil => simp [utf8Len, utf8DropBytes]
  | cons c t ih =>
    have hpos : 0 < c.utf8Size := Char.utf8Size_pos c
    obtain ⟨m, hm⟩ : ∃ m, c.utf8Size + utf8Len t = m + 1 :=
      ⟨c.utf8Size + utf8Len t - 1, by omega⟩
    rw [utf8Len, List.cons_append, hm, utf8DropBytes, if_pos (by omega)]
    have harg : m + 1 - c.utf8Size = utf8Len t := by omega
    rw [harg]
    exact ih

theorem no_boundary_of_dropBytes_none (n : Nat) (s : Chars)
    (h : utf8DropBytes n s = none) :
    ∀ p q, s = p ++ q → utf8Len p ≠ n := by
  intro p q hpq hlen
  rw [hpq, ← hlen, utf8DropBytes_of_prefix] at h
  cases h

/-- C10: the derivation of `path_name` is total only when the store-path
text before the first comma has a UTF-8 character boundary at byte offset
44 (in particular is at least 44 bytes long). When a qualifying row's
store path violates this, the worker panics at the byte slice
`store_path[44..]` inside the spawned task — it does not return one of the
logged per-build errors. -/
theorem claim_c10 (arch : Chars) (pre post : List Html) (row ttn : Html)
    (m1 : List (Chars × Chars))
    (hpre : processRows arch pre [] = .ok m1)
    (h5 : (findDesc (isNamed sTd) row).length = 5)
    (hstatus : (isSubstr sFailed (nodeText (getCol row 4))
      || isSubstr sCached (nodeText (getCol row 4))) = true)
    (hlink : (chooseLink (findDesc (isNamed sAnchor) (getCol row 4))).isSome
      = true)
    (htt : (findDesc (isNamed sTt) (getCol row 1)).head? = some ttn)
    (hviol : ∀ p q, firstCommaPart (nodeText ttn) = p ++ q → utf8Len p ≠ 44) :
    processRows arch (pre ++ row :: post) [] = .panicked := by
  have hdrop : utf8DropBytes 44 (firstCommaPart (nodeText ttn)) = none := by
    cases hd : utf8DropBytes 44 (firstCommaPart (nodeText ttn)) with
    | none => rfl
    | some q =>
      obtain ⟨p, hpq, hlen⟩ := utf8DropBytes_eq_some _ _ _ hd
      exact absurd hlen (hviol p q hpq)
  have hrow : processRow arch row = .panicked := by
    obtain ⟨href, hhref⟩ := Option.isSome_iff_exists.mp hlink
    simp [processRow, h5, hstatus, hhref, htt, hdrop]
  rw [processRows_append, hpre]
  rw [contRows, processRows, hrow]

theorem claim_c10_witness :
    processRows sArchLinux ([] ++ c10Row :: []) [] = .panicked :=
  claim_c10 sArchLinux [] [] c10Row c10Ttn [] rfl (by decide) (by decide)
    (by decide) rfl
    (no_boundary_of_dropBytes_none 44 _ (by decide))

theorem processRow_record_shape (arch : Chars) (row : Html) (k v : Chars)
    (h : processRow arch row = .record k v) :
    k = rowStorePath row ∧
    v = recordLine (rowPathName row) arch (rowOrigin row) := by
  unfold processRow at h
  split at h
  · simp at h
  · split at h
    · simp at h
    · split at h
      · simp at h
      · rename_i href hlink
        split at h
        · simp at h
        · rename_i ttn htt
          split at h
          · simp at h
          · rename_i pn hdrop
            split at h
            · simp at h
            · rename_i bid hbid
              have hsp : rowStorePath row = firstCommaPart (nodeText ttn) := by
                simp only [rowStorePath, htt, Option.getD_some]
              have hpn : rowPathName row = pn := by
                simp only [rowPathName, hsp, hdrop, Option.getD_some]
              have hor : rowOrigin row = bid := by
                simp only [rowOrigin, hlink]
                simp [hbid]
              injection h with h1 h2
              exact ⟨h1.symm.trans hsp.symm, h2.symm.trans (by rw [hpn, hor])⟩

theorem splitChP_no_sep (p : Char → Bool) (s : Chars)
    (h : ∀ c ∈ s, p c = false) :
    splitChP p s = [s] := by
  induction s with
  | nil => rfl
  | cons c t ih =>
    have hc := h c (List.mem_cons_self _ _)
    simp only [splitChP]
    rw [if_neg (by simp [hc]),
      ih (fun c2 h2 => h c2 (List.mem_cons_of_mem _ h2))]

theorem splitChP_append_sep (p : Char → Bool) (a rest : Chars) (c0 : Char)
    (hc : p c0 = true) (ha : ∀ c ∈ a, p c = false) :
    splitChP p (a ++ c0 :: rest) = a :: splitChP p rest := by
  induction a with
  | nil =>
    simp only [List.nil_append, splitChP, hc, if_true]
  | cons c t ih =>
    have hcc := ha c (List.mem_cons_self _ _)
    simp only [List.cons_append, splitChP]
    rw [if_neg (by simp [hcc])]
    simp only [List.append_eq]
    rw [ih (fun c2 h2 => ha c2 (List.mem_cons_of_mem _ h2))]

theorem matchesGrammar_recordLine (pn arch o : Chars)
    (hpn : pn ≠ []) (hpns : ∀ c ∈ pn, (c == ';') = false)
    (ha : arch ≠ []) (has2 : ∀ c ∈ arch, (c == ';') = false)
    (ho : o ≠ []) (hod : o.all Char.isDigit = true) :
    matchesGrammar (recordLine pn arch o) = true := by
  have hos : ∀ c ∈ o, (c == ';') = false := by
    intro c hc
    have hd := List.all_eq_true.mp hod c hc
    cases hbc : (c == ';') with
    | false => rfl
    | true =>
      have hce : c = ';' := beq_iff_eq.mp hbc
      rw [hce] at hd
      cases hd
  have hshape : recordLine pn arch o = pn ++ ';' :: (arch ++ ';' :: o) := by
    simp [recordLine, sSemi]
  have hsplit : splitCh ';' (recordLine pn arch o) = [pn, arch, o] := by
    rw [hshape]
    unfold splitCh
    rw [splitChP_append_sep _ _ _ _ (by simp) hpns,
      splitChP_append_sep _ _ _ _ (by simp) has2,
      splitChP_no_sep _ _ hos]
  simp only [matchesGrammar, hsplit]
  simp [List.isEmpty_eq_true, hpn, ha, ho, hod]

theorem mem_insertAL (kv : Chars × Chars) (k v : Chars)
    (m : List (Chars × Chars)) (h : kv ∈ insertAL k v m) :
    kv ∈ m ∨ kv = (k, v) := by
  unfold insertAL at h
  rcases List.mem_append.mp h with h1 | h2
  · exact Or.inl (List.mem_of_mem_filter h1)
  · exact Or.inr (List.mem_singleton.mp h2)

theorem processRows_values (arch : Chars) (rows : List Html) :
    ∀ (acc recs : List (Chars × Chars)),
      (∀ kv ∈ acc, matchesGrammar kv.2 = true) →
      (∀ r ∈ rows, cleanRow arch r = true) →
      processRows arch rows acc = .ok recs →
      ∀ kv ∈ recs, matchesGrammar kv.2 = true := by
  induction rows with
  | nil =>
    intro acc recs hacc _ hok
    have hh : acc = recs := by simpa [processRows] using hok
    exact hh ▸ hacc
  | cons r rest ih =>
    intro acc recs hacc hrows hok
    have hrest : ∀ r2 ∈ rest, cleanRow arch r2 = true :=
      fun r2 h2 => hrows r2 (List.mem_cons_of_mem _ h2)
    cases hr : processRow arch r with
    | skipped =>
      rw [processRows, hr] at hok
      exact ih acc recs hacc hrest hok
    | panicked => rw [processRows, hr] at hok; cases hok
    | err m2 => rw [processRows, hr] at hok; cases hok
    | record k v =>
      rw [processRows, hr] at hok
      have hcr := hrows r (List.mem_cons_self _ _)
      have hshape := processRow_record_shape arch r k v hr
      have hg : matchesGrammar v = true := by
        unfold cleanRow at hcr
        rw [hr] at hcr
        simp only [Bool.and_eq_true] at hcr
        obtain ⟨⟨⟨⟨⟨h1, h2⟩, h3⟩, h4⟩, h5⟩, h6⟩ := hcr
        rw [hshape.2]
        apply matchesGrammar_recordLine
        · intro he; rw [he] at h1; simp at h1
        · intro c hc
          have := List.all_eq_true.mp h2 c hc
          simpa using this
        · intro he; rw [he] at h3; simp at h3
        · intro c hc
          have := List.all_eq_true.mp h4 c hc
          simpa using this
        · intro he; rw [he] at h5; simp at h5
        · exact h6
      refine ih (insertAL k v acc) recs (fun kv hkv => ?_) hrest hok
      rcases mem_insertAL kv k v acc hkv with hin | heq
      · exact hacc kv hin
      · rw [heq]; exact hg

/-- C3 (amended): every line a worker emits is
`path_name;architecture;origin_build_id` built from the extracted
components; it matches `^[^;]+;[^;]+;[0-9]+$` provided the extracted path
name and architecture are non-empty and semicolon-free and the origin
token is a non-empty digit string — properties the code never enforces on
the scraped page (see the counterexample). -/
theorem claim_c3 (doc : HtmlForest) (recs : List (Chars × Chars))
    (kv : Chars × Chars)
    (hok : fetchFailedDepsOf doc = .ok recs)
    (hmem : kv ∈ recs)
    (hclean : ∀ row ∈ docRows doc, cleanRow (docArch doc) row = true) :
    matchesGrammar kv.2 = true := by
  unfold fetchFailedDepsOf at hok
  cases harch : archOf doc with
  | none => rw [harch] at hok; cases hok
  | some arch =>
    rw [harch] at hok
    cases htbl : stepsTableOf doc with
    | none => rw [htbl] at hok; cases hok
    | some tbl =>
      rw [htbl] at hok
      have hda : docArch doc = arch := by simp [docArch, harch]
      have hdr : docRows doc = findDesc (isNamed sTr) tbl := by
        simp [docRows, htbl]
      refine processRows_values arch _ [] recs (by simp) ?_ hok kv hmem
      rw [← hdr]
      intro row hrow
      rw [← hda]
      exact hclean row hrow

/-- C3 counterexample: the architecture text is copied verbatim into the
record, so a page whose architecture contains a semicolon yields an
emitted line with four fields, violating `^[^;]+;[^;]+;[0-9]+$`. -/
theorem claim_c3_cex :
    fetchFailedDepsOf c3Doc =
      .ok [(firstCommaPart e1StorePathText, c3Line)] ∧
    matchesGrammar c3Line = false := by
  exact ⟨by decide, by decide⟩

theorem claim_c3_witness :
    matchesGrammar (("bbbbbbbbbbbb-pkg;arch-linux;42").toList) = true :=
  claim_c3 (e1Doc hrefAbs)
    [(firstCommaPart e1StorePathText,
      ("bbbbbbbbbbbb-pkg;arch-linux;42").toList)]
    (firstCommaPart e1StorePathText,
      ("bbbbbbbbbbbb-pkg;arch-linux;42").toList)
    (by decide) (by decide) (by decide)

theorem reach_stPub : Reach 1 stPub := by
  have h1 : RStep 1 runInit ⟨true, 0, false, 0, []⟩ :=
    RStep.mkfile runInit rfl
  have h2 : RStep 1 ⟨true, 0, false, 0, []⟩ ⟨true, 1, false, 0, []⟩ :=
    RStep.spawn _ rfl rfl (by decide)
  have h3 : RStep 1 ⟨true, 1, false, 0, []⟩ stPub :=
    RStep.publish _ rfl rfl rfl
  exact Reach.next _ _ (Reach.next _ _ (Reach.next _ _ Reach.start h1) h2) h3

/-- C2: the code renames `<e>.cache.new` to `<e>.cache` immediately after
spawning the evaluation's workers (line 89), before any of them need have
drained: in a 1-build run the state `stPub` is reachable, where
`<e>.cache` exists while 0 of the 1 spawned workers have completed and
nothing has been written. This contradicts the claim that `<e>.cache`
exists only once production of the output has completed; the rename marks
the end of spawning, not of production. -/
theorem claim_c2 :
    Reach 1 stPub ∧ cacheExistsB stPub = true ∧ stPub.doneW = 0 ∧
    stPub.spawned = 1 ∧ stPub.content = [] :=
  ⟨reach_stPub, rfl, rfl, rfl, rfl⟩

/-- C8: after a run over request set `argv`, the cache directory keeps no
valid numeric `<n>.cache` entry with `n ∉ argv`; entries not ending in
`.cache`, and `.cache` entries whose stem does not parse as `u64`, are
left alone. -/
theorem claim_c8 (argv : List Nat) (dir : List Chars) (name : Chars)
    (n : Nat) (hmem : name ∈ dir) :
    (stemParse name = some n → n ∉ argv → name ∉ purgeDir argv dir) ∧
    (sCacheSuffix.isSuffixOf name = false → name ∈ purgeDir argv dir) ∧
    (sCacheSuffix.isSuffixOf name = true → stemParse name = none →
      name ∈ purgeDir argv dir) := by
  refine ⟨?_, ?_, ?_⟩
  · intro hp hn hin
    have hk : purgeKeep argv name = true := List.of_mem_filter hin
    unfold stemParse at hp
    cases hs : stripSuffix? name sCacheSuffix with
    | none => rw [hs] at hp; cases hp
    | some stem =>
      rw [hs] at hp
      simp only [Option.some_bind] at hp
      have hsuf : sCacheSuffix.isSuffixOf name = true := by
        cases hsb : sCacheSuffix.isSuffixOf name with
        | true => rfl
        | false =>
          unfold stripSuffix? at hs
          rw [if_neg (by simp [hsb])] at hs
          cases hs
      unfold purgeKeep at hk
      rw [hsuf] at hk
      simp [hs, hp] at hk
      exact hn hk
  · intro hsuf
    refine List.mem_filter.mpr ⟨hmem, ?_⟩
    unfold purgeKeep
    rw [hsuf]
    rfl
  · intro hsuf hsp
    have hs : stripSuffix? name sCacheSuffix =
        some (name.take (name.length - sCacheSuffix.length)) := by
      unfold stripSuffix?
      rw [if_pos (by simp [hsuf])]
    unfold stemParse at hsp
    rw [hs] at hsp
    simp only [Option.some_bind] at hsp
    refine List.mem_filter.mpr ⟨hmem, ?_⟩
    unfold purgeKeep
    rw [hsuf]
    simp [hs, hsp]

theorem claim_c8_witness :
    ("7.cache").toList ∉
      purgeDir [] [("7.cache").toList, ("notes.txt").toList] ∧
    ("notes.txt").toList ∈
      purgeDir [] [("7.cache").toList, ("notes.txt").toList] :=
  ⟨(claim_c8 [] [("7.cache").toList, ("notes.txt").toList]
      (("7.cache").toList) 7 (by decide)).1 (by decide) (by decide),
   (claim_c8 [] [("7.cache").toList, ("notes.txt").toList]
      (("notes.txt").toList) 0 (by decide)).2.1 (by decide)⟩
